import Mathlib

/-
Verification of the pnpm-lockfile → npm-lockfile conversion core
(src/lib/compass/processPnpmLockfile.ts).

Strings are modelled as lists of characters.  JavaScript objects used as
string-keyed maps are modelled as association lists with JS-object update
semantics: assignment to an existing key updates the value in place, keeping
the key's position; assignment to a new key appends it; `delete` removes the
entry.  Fallible code returns `Except` (a thrown `Error` is `.error msg`);
the JavaScript runtime `TypeError` raised by reading a property of
`undefined` is modelled as a distinguished `.error` value.
-/

namespace Compass

abbrev Str := List Char

/-- Association-list lookup: `m[k]`, `undefined` is `none`. -/
def lkp {α : Type} : List (Str × α) → Str → Option α
  | [], _ => none
  | (k, v) :: rest, key => if k = key then some v else lkp rest key

/-- JS-object assignment `m[k] = v`: update in place or append at the end. -/
def ins {α : Type} : List (Str × α) → Str → α → List (Str × α)
  | [], key, v => [(key, v)]
  | (k, w) :: rest, key, v =>
      if k = key then (k, v) :: rest else (k, w) :: ins rest key v

/-- JS `delete m[k]`. -/
def ers {α : Type} : List (Str × α) → Str → List (Str × α)
  | [], _ => []
  | (k, w) :: rest, key =>
      if k = key then ers rest key else (k, w) :: ers rest key

def keysOf {α : Type} (m : List (Str × α)) : List Str := m.map Prod.fst

/-- Split a string at its first `'/'`: `some (before, after)`, or `none`
when there is no slash.  This is the deterministic content of the
`[^/]*\/` / `[^/]+\/` pieces of the source regexes. -/
def breakSlash : Str → Option (Str × Str)
  | [] => none
  | c :: r =>
      if c = '/' then some ([], r)
      else
        match breakSlash r with
        | some (a, b) => some (c :: a, b)
        | none => none

/-- `version.indexOf("_")` / `substr` pair: split at the first underscore;
the suffix is `none` when no underscore occurs.  (Lines 127-133.) -/
def splitFirst (t : Char) : Str → Str × Option Str
  | [] => ([], none)
  | c :: r =>
      if c = t then ([], some r)
      else
        match splitFirst t r with
        | (a, b) => (c :: a, b)

/-- The character class `[0-9a-f]` of the github regex. -/
def isHexDigitLower (c : Char) : Bool :=
  ('0' ≤ c && c ≤ '9') || ('a' ≤ c && c ≤ 'f')

/- ---------------------------------------------------------------------
Data model (interfaces of processPnpmLockfile.ts, lines 5-60).
--------------------------------------------------------------------- -/

structure PackageResolution where
  integrity : Option Str := none
  deriving Repr, DecidableEq

structure PackageSnapshot where
  name : Option Str := none
  resolution : PackageResolution := {}
  dependencies : Option (List (Str × Str)) := none
  dev : Option Bool := none
  deriving Repr, DecidableEq

structure PnpmPackageLock where
  dependencies : Option (List (Str × Str)) := none
  devDependencies : Option (List (Str × Str)) := none
  optionalDependencies : Option (List (Str × Str)) := none
  lockfileVersion : Int := 1
  packages : List (Str × PackageSnapshot) := []
  specifiers : List (Str × Str) := []
  deriving Repr, DecidableEq

structure NpmLockedPackageSubDependency where
  version : Str
  resolved : Option Str := none
  integrity : Option Str := none
  deriving Repr, DecidableEq

/-- `from` is a Lean keyword, so the source field `from` is embedded as
`from_`. -/
structure NpmLockedPackageDependency where
  version : Str
  resolved : Option Str := none
  from_ : Option Str := none
  integrity : Option Str := none
  dev : Option Bool := none
  requires : Option (List (Str × Str)) := none
  dependencies : Option (List (Str × NpmLockedPackageSubDependency)) := none
  deriving Repr, DecidableEq

structure NpmPackageLock where
  requires : Option Bool := none
  lockfileVersion : Int
  dependencies : List (Str × NpmLockedPackageDependency)
  deriving Repr, DecidableEq

inductive PnpmPackageDescType where
  | Version
  | Github
  | Uri
  deriving Repr, DecidableEq

structure PnpmPackageDesc where
  type : PnpmPackageDescType
  fullName : Str
  name : Str
  version : Str
  extra : Option Str := none
  deriving Repr, DecidableEq

/- ---------------------------------------------------------------------
Identifier parsing (lines 86-150).
--------------------------------------------------------------------- -/

def ghPrefix : Str := "github.com/".toList

/-- The regex `^github.com\/([^/]+\/([^/]+))\/([0-9a-f]{40})$` (line 87).
The unescaped dot of the source regex matches an arbitrary character, hence
the wildcard at position 6; the only caller guards on the literal prefix
`github.com/`, so that character is `'.'` on every reachable input.
Owner and repo are the slash-free first and second segments after the host,
and the remainder must be exactly forty lowercase hex characters.
`ghHeadMatch` is the host part `^github.com\/`, with the unescaped dot as a
wildcard character: it yields the text after the host on a match. -/
def ghHeadMatch : Str → Option Str
  | 'g' :: 'i' :: 't' :: 'h' :: 'u' :: 'b' :: _ :: 'c' :: 'o' :: 'm' :: '/' :: rest => some rest
  | _ => none

def matchGithub (uri : Str) : Option PnpmPackageDesc :=
  match ghHeadMatch uri with
  | some rest =>
    match breakSlash rest with
    | some (owner, rest1) =>
      match breakSlash rest1 with
      | some (repo, hash) =>
        if owner ≠ [] ∧ repo ≠ [] ∧ hash.length = 40 ∧ hash.all isHexDigitLower = true then
          some ⟨.Github, uri, repo,
                "github:".toList ++ owner ++ '/' :: repo ++ '#' :: hash, none⟩
        else none
      | none => none
    | none => none
  | none => none

/-- `getGithubPackageDesc` (lines 86-99). -/
def getGithubPackageDesc (uri : Str) : Except Str PnpmPackageDesc :=
  match matchGithub uri with
  | some d => .ok d
  | none => .error ("Error parsing github URI ".toList ++ uri)

/-- The name/version part of the regex
`^[^/]*\/((?:@[^/]+\/)?[^/]+)\/(.*)$` (line 111), applied to the text after
the first slash.  The scoped alternative `@[^/]+\/` is tried first; when it
cannot complete a match the engine backtracks to the plain `[^/]+` name,
exactly as the JS engine does. -/
def parsePathName (r : Str) : Option (Str × Str) :=
  let plain : Option (Str × Str) :=
    match breakSlash r with
    | some (a, rest) => if a = [] then none else some (a, rest)
    | none => none
  match r with
  | c :: r1 =>
    if c = '@' then
      match breakSlash r1 with
      | some (t, r2) =>
        if t = [] then plain
        else
          match breakSlash r2 with
          | some (b, rest2) => if b = [] then plain else some ('@' :: t ++ '/' :: b, rest2)
          | none => plain
      | none => plain
    else plain
  | [] => plain

/-- `getPathPackageDesc` (lines 109-138). -/
def getPathPackageDesc (fullName : Str) : Except Str PnpmPackageDesc :=
  if ghPrefix.isPrefixOf fullName then getGithubPackageDesc fullName
  else
    match breakSlash fullName with
    | none => .error ("Error parsing package name ".toList ++ fullName)
    | some (_, r) =>
      match parsePathName r with
      | none => .error ("Error parsing package name ".toList ++ fullName)
      | some (name, version) =>
        let type : PnpmPackageDescType :=
          match fullName with
          | c :: _ => if c = '/' then .Version else .Uri
          | [] => .Uri
        let pr := splitFirst '_' version
        .ok ⟨type, fullName, name, pr.1, pr.2⟩

/-- `getDependencyPackageDesc` (lines 141-150): a bare version number
(leading digit, regex `^\d`) synthesises the path key `/name/version`. -/
def getDependencyPackageDesc (name version : Str) : Except Str PnpmPackageDesc :=
  match version with
  | c :: _ =>
      if c.isDigit then getPathPackageDesc ('/' :: name ++ '/' :: version)
      else getPathPackageDesc version
  | [] => getPathPackageDesc []

/- ---------------------------------------------------------------------
Package resolution (lines 152-203).
--------------------------------------------------------------------- -/

/-- `getPackage` (lines 152-190).  The mutation of `lockfile.packages` by
`delete` is made explicit: the function returns the updated packages map
next to the dependency record. -/
def getPackage (pkgs : List (Str × PackageSnapshot)) (specifiers : List (Str × Str))
    (packageDesc : PnpmPackageDesc) (remove : Bool) :
    Except Str (NpmLockedPackageDependency × List (Str × PackageSnapshot)) :=
  match lkp pkgs packageDesc.fullName with
  | none => .error ("Failed to lookup ".toList ++ packageDesc.fullName ++ " in packages".toList)
  | some snapshot =>
    -- The source initialises `dep` with only `version` and then assigns each
    -- further field exactly when its source datum is present; with optional
    -- fields modelled as `Option` this is the same as building the record in
    -- one step from the copied options.
    let fromVal : Option Str :=
      if packageDesc.type = .Github then
        match snapshot.name with
        | some nm => lkp specifiers nm
        | none => none
      else none
    let dep : NpmLockedPackageDependency :=
      { version := packageDesc.version,
        from_ := fromVal,
        integrity := snapshot.resolution.integrity,
        requires := snapshot.dependencies,
        dev := if snapshot.dev = some true then some true else none }
    if remove then .ok (dep, ers pkgs packageDesc.fullName) else .ok (dep, pkgs)

/-- `getSubDependencyFromDependency` (lines 192-203). -/
def getSubDependencyFromDependency (dep : NpmLockedPackageDependency) :
    NpmLockedPackageSubDependency :=
  { version := dep.version, resolved := dep.resolved, integrity := dep.integrity }

/- ---------------------------------------------------------------------
The three-phase reshaping (processLockfile, lines 205-263).
--------------------------------------------------------------------- -/

/-- Modelled from the spec: the iteration order of the dependency-kind
buckets is the constant `DEPENDENCIES_FIELDS` of `@pnpm/types`, which is
not part of this repository; the spec fixes the priority order as runtime
(`dependencies`), then development (`devDependencies`), then optional
(`optionalDependencies`), with an undefined bucket contributing nothing
(lines 210-212). -/
def allRootEntries (l : PnpmPackageLock) : List (Str × Str) :=
  (l.dependencies.getD []) ++ (l.devDependencies.getD []) ++ (l.optionalDependencies.getD [])

/-- Phase 1 loop body (lines 213-216), folded over the concatenated bucket
entries.  State: the root map `deps` and the current `lockfile.packages`. -/
def phase1Entries (specs : List (Str × Str)) :
    (List (Str × NpmLockedPackageDependency) × List (Str × PackageSnapshot)) →
    List (Str × Str) →
    Except Str (List (Str × NpmLockedPackageDependency) × List (Str × PackageSnapshot))
  | st, [] => .ok st
  | (deps, pkgs), (name, version) :: rest =>
    match getDependencyPackageDesc name version with
    | .error m => .error m
    | .ok packageDesc =>
      match getPackage pkgs specs packageDesc true with
      | .error m => .error m
      | .ok (dep, pkgs') => phase1Entries specs (ins deps packageDesc.name dep, pkgs') rest

def phase1 (l : PnpmPackageLock) :
    Except Str (List (Str × NpmLockedPackageDependency) × List (Str × PackageSnapshot)) :=
  phase1Entries l.specifiers ([], l.packages) (allRootEntries l)

/-- Phase 2 (lines 221-229): iterate the remaining packages (the entry list
`es`), looking snapshots up in the untouched map `pkgs`; a key whose parsed
name is already a root is staged in `sub` under its full key, otherwise it
is promoted into `deps` under its name. -/
def phase2 (pkgs : List (Str × PackageSnapshot)) (specs : List (Str × Str)) :
    (List (Str × NpmLockedPackageDependency) × List (Str × NpmLockedPackageDependency)) →
    List (Str × PackageSnapshot) →
    Except Str (List (Str × NpmLockedPackageDependency) × List (Str × NpmLockedPackageDependency))
  | st, [] => .ok st
  | (deps, sub), (key, _) :: rest =>
    match getPathPackageDesc key with
    | .error m => .error m
    | .ok packageDesc =>
      match getPackage pkgs specs packageDesc false with
      | .error m => .error m
      | .ok (pkg, _) =>
        if (lkp deps packageDesc.name).isSome then
          phase2 pkgs specs (deps, ins sub packageDesc.fullName pkg) rest
        else
          phase2 pkgs specs (ins deps packageDesc.name pkg, sub) rest

/-- The JavaScript `TypeError` raised by `deps[name].version` when
`deps[name]` is `undefined` (line 245 with a missing root). -/
def jsUndefinedVersionError : Str :=
  "TypeError: Cannot read properties of undefined (reading version)".toList

/-- One iteration of the inner Phase-3 loop (lines 234-259): process the
requires entry `(name, version)` of the root `key` whose current record is
`val`, producing the updated record. -/
def phase3Entry (deps sub : List (Str × NpmLockedPackageDependency)) (key : Str)
    (val : NpmLockedPackageDependency) (name version : Str) :
    Except Str NpmLockedPackageDependency :=
  match getDependencyPackageDesc name version with
  | .error m => .error m
  | .ok packageDesc =>
    let step : Except Str NpmLockedPackageDependency :=
      match lkp sub packageDesc.fullName with
      | some dep =>
        let nested := ins (val.dependencies.getD []) name (getSubDependencyFromDependency dep)
        .ok { val with dependencies := some nested }
      | none =>
        match lkp deps name with
        | none => .error jsUndefinedVersionError
        | some dep =>
          if dep.version ≠ packageDesc.version then
            .error ("Failed to lookup ".toList ++ packageDesc.fullName ++
                    " in dependencies; used by ".toList ++ key)
          else .ok val
    match step with
    | .error m => .error m
    | .ok val1 =>
      if packageDesc.extra ≠ none ∨ packageDesc.type = .Uri then
        .ok { val1 with requires := some (ins (val1.requires.getD []) name packageDesc.version) }
      else .ok val1

/-- The inner Phase-3 loop over the (snapshot of the) requires entries of
one root. -/
def phase3ReqFold (deps sub : List (Str × NpmLockedPackageDependency)) (key : Str) :
    NpmLockedPackageDependency → List (Str × Str) →
    Except Str NpmLockedPackageDependency
  | val, [] => .ok val
  | val, (name, version) :: rest =>
    match phase3Entry deps sub key val name version with
    | .error m => .error m
    | .ok val' => phase3ReqFold deps sub key val' rest

/-- Phase 3 (lines 232-261): fold over the snapshot `es` of the root map's
entries taken before the loop; mutations of a root's record are written
back into the evolving map.  Only the `requires` and `dependencies` fields
of a record are ever written, so looking versions up in the evolving map is
observationally the same as the in-place object mutation of the source. -/
def phase3 (sub : List (Str × NpmLockedPackageDependency)) :
    List (Str × NpmLockedPackageDependency) → List (Str × NpmLockedPackageDependency) →
    Except Str (List (Str × NpmLockedPackageDependency))
  | deps, [] => .ok deps
  | deps, (key, val) :: rest =>
    match val.requires with
    | none => phase3 sub deps rest
    | some rs =>
      match phase3ReqFold deps sub key val rs with
      | .error m => .error m
      | .ok val' => phase3 sub (ins deps key val') rest

/-- `processLockfile` (lines 205-263). -/
def processLockfile (lockfile : PnpmPackageLock) : Except Str NpmPackageLock :=
  match phase1 lockfile with
  | .error m => .error m
  | .ok (deps1, pkgs1) =>
    match phase2 pkgs1 lockfile.specifiers (deps1, []) pkgs1 with
    | .error m => .error m
    | .ok (deps2, sub) =>
      match phase3 sub deps2 deps2 with
      | .error m => .error m
      | .ok deps3 => .ok { requires := some true, lockfileVersion := 1, dependencies := deps3 }

/- ---------------------------------------------------------------------
Entry point and the loader boundary (lines 62-84).
--------------------------------------------------------------------- -/

/-- The outcome of `readYamlFile` on a path: the file is missing (ENOENT),
some other I/O failure occurred, or the parsed document was produced. -/
inductive ReadResult where
  | notFound : ReadResult
  | ioError : Str → ReadResult
  | content : PnpmPackageLock → ReadResult

/-- `readPnpmLockfile` (lines 73-84): ENOENT is caught and turned into
`null`; every other failure is rethrown. -/
def readPnpmLockfile (r : ReadResult) : Except Str (Option PnpmPackageLock) :=
  match r with
  | .notFound => .ok none
  | .ioError e => .error e
  | .content l => .ok (some l)

/-- `processPnpmLockfile` (lines 62-71). -/
def processPnpmLockfile (lockfilePath : Str) (r : ReadResult) : Except Str NpmPackageLock :=
  match readPnpmLockfile r with
  | .error m => .error m
  | .ok none => .error ("Failed to load pnpm lock file ".toList ++ lockfilePath)
  | .ok (some lockfile) => processLockfile lockfile

/- ---------------------------------------------------------------------
Auxiliary definitions used by the statements of the claims.
--------------------------------------------------------------------- -/

def chars (x : String) : Str := x.toList

/-- The version-control key grammar as the spec describes it: the
`github.com/` host prefix, a slash-free owner, a slash-free repository
short name, and a forty-character lowercase-hex commit. -/
def GithubShape (k : Str) : Prop :=
  ∃ owner repo hash : Str,
    k = ghPrefix ++ owner ++ '/' :: repo ++ '/' :: hash ∧
    owner ≠ [] ∧ repo ≠ [] ∧ '/' ∉ owner ∧ '/' ∉ repo ∧
    hash.length = 40 ∧ hash.all isHexDigitLower = true

/-- Equality of all fields of a dependency record except `requires` and
`dependencies`, the only two fields Phase 3 rewrites. -/
def SameCore (a b : NpmLockedPackageDependency) : Prop :=
  a.version = b.version ∧ a.resolved = b.resolved ∧ a.from_ = b.from_ ∧
  a.integrity = b.integrity ∧ a.dev = b.dev

/-- How many times the package of source key `k` appears in an output
document: once if the top-level entry under its parsed name carries its
resolved version, plus once for every root under whose nested
`dependencies` map its name resolves to its version.  This counts the
appearances that the completeness claim speaks about. -/
def keyAppearCount (out : NpmPackageLock) (k : Str) : Nat :=
  match getPathPackageDesc k with
  | .error _ => 0
  | .ok d =>
    (match lkp out.dependencies d.name with
     | some r => if r.version = d.version then 1 else 0
     | none => 0)
    +
    (out.dependencies.map (fun kv =>
      match kv.2.dependencies with
      | some sm =>
        match lkp sm d.name with
        | some sd => if sd.version = d.version then 1 else 0
        | none => 0
      | none => 0)).sum

def lockOr (e : Except Str NpmPackageLock) : NpmPackageLock :=
  match e with
  | .ok o => o
  | .error _ => { requires := none, lockfileVersion := 0, dependencies := [] }

def snapWithReqs (rs : List (Str × Str)) : PackageSnapshot :=
  { dependencies := some rs }

/-- Source document in which the name `a` occurs in two dependency-kind
buckets at different versions and the staged key `/a/3.0.0` is required by
the two roots `foo` and `baz`. -/
def cdoc1 : PnpmPackageLock :=
  { dependencies := some [(chars "foo", chars "1.0.0"), (chars "baz", chars "1.0.0"),
                          (chars "a", chars "1.0.0")],
    devDependencies := some [(chars "a", chars "2.0.0")],
    packages := [(chars "/foo/1.0.0", snapWithReqs [(chars "a", chars "3.0.0")]),
                 (chars "/baz/1.0.0", snapWithReqs [(chars "a", chars "3.0.0")]),
                 (chars "/a/1.0.0", {}), (chars "/a/2.0.0", {}), (chars "/a/3.0.0", {})] }

def c1out : NpmPackageLock := lockOr (processLockfile cdoc1)

/-- Source document whose root `foo` requires `bar` through a specifier
carrying the disambiguating suffix `_peer`, while `bar` itself is a root of
the equal version `1.0.0`. -/
def cdoc3 : PnpmPackageLock :=
  { dependencies := some [(chars "foo", chars "1.0.0"),
                          (chars "bar", chars "/bar/1.0.0_peer")],
    packages := [(chars "/foo/1.0.0", snapWithReqs [(chars "bar", chars "/bar/1.0.0_peer")]),
                 (chars "/bar/1.0.0_peer", {})] }

def c3out : NpmPackageLock := lockOr (processLockfile cdoc3)

/-- Source document whose root `foo` requires `bar@2.0.0`, while no package
key `/bar/2.0.0` exists and `bar` is not a root. -/
def cdoc9 : PnpmPackageLock :=
  { dependencies := some [(chars "foo", chars "1.0.0")],
    packages := [(chars "/foo/1.0.0", snapWithReqs [(chars "bar", chars "2.0.0")])] }

/-- Source document for the precedence scenario: `a` at `1.0.0` in the
runtime bucket and at `2.0.0` in the development bucket. -/
def c4doc : PnpmPackageLock :=
  { dependencies := some [(chars "a", chars "1.0.0")],
    devDependencies := some [(chars "a", chars "2.0.0")],
    packages := [(chars "/a/1.0.0", {}), (chars "/a/2.0.0", {})] }

def c4out : NpmPackageLock := lockOr (processLockfile c4doc)

def okPair (e : Except Str (NpmLockedPackageDependency × List (Str × PackageSnapshot))) :
    NpmLockedPackageDependency × List (Str × PackageSnapshot) :=
  match e with
  | .ok p => p
  | .error _ => ({ version := [] }, [])

/-- A dev-marked snapshot and a matching descriptor, used to instantiate the
resolver theorems on a concrete input. -/
def wSnapDev : PackageSnapshot := { dev := some true }

def wPkgs : List (Str × PackageSnapshot) := [(chars "/a/1.0.0", wSnapDev)]

def wDesc : PnpmPackageDesc :=
  { type := .Version, fullName := chars "/a/1.0.0", name := chars "a",
    version := chars "1.0.0", extra := none }

def wDep : NpmLockedPackageDependency := (okPair (getPackage wPkgs [] wDesc false)).1

def wPk : List (Str × PackageSnapshot) := (okPair (getPackage wPkgs [] wDesc false)).2

def depOr (e : Except Str NpmLockedPackageDependency) : NpmLockedPackageDependency :=
  match e with
  | .ok v => v
  | .error _ => { version := [] }

/-- Concrete Phase-3 instance: root map holding `bar@1.0.0`, a root record
that requires `bar` through the suffixed specifier `/bar/1.0.0_peer`. -/
def w3deps : List (Str × NpmLockedPackageDependency) :=
  [(chars "bar", { version := chars "1.0.0" })]

def w3val : NpmLockedPackageDependency :=
  { version := chars "1.0.0",
    requires := some [(chars "bar", chars "/bar/1.0.0_peer")] }

def w3desc : PnpmPackageDesc :=
  { type := .Version, fullName := chars "/bar/1.0.0_peer", name := chars "bar",
    version := chars "1.0.0", extra := some (chars "peer") }

def w3res : NpmLockedPackageDependency :=
  depOr (phase3Entry w3deps [] (chars "/foo/1.0.0") w3val (chars "bar") (chars "/bar/1.0.0_peer"))

/- =====================================================================
Lemmas.
===================================================================== -/

theorem splitFirst_fst_no (t : Char) (s : Str) : t ∉ (splitFirst t s).1 := by
  induction s with
  | nil => simp [splitFirst]
  | cons c r ih =>
    by_cases h : c = t
    · simp [splitFirst, h]
    · simp only [splitFirst, if_neg h, List.mem_cons]
      rintro (rfl | hm)
      · exact h rfl
      · exact ih hm

theorem matchGithub_inv {uri : Str} {d : PnpmPackageDesc} (h : matchGithub uri = some d) :
    d.type = .Github ∧ d.extra = none ∧ d.fullName = uri := by
  unfold matchGithub at h
  repeat split at h
  all_goals cases h
  all_goals exact ⟨rfl, rfl, rfl⟩

theorem pathType_ne_github (k : Str) :
    (match k with
     | c :: _ => if c = '/' then PnpmPackageDescType.Version else PnpmPackageDescType.Uri
     | [] => PnpmPackageDescType.Uri) ≠ PnpmPackageDescType.Github := by
  rcases k with _ | ⟨c, k'⟩
  · simp
  · by_cases h : c = '/' <;> simp [h]

theorem getPathPackageDesc_basic {k : Str} {d : PnpmPackageDesc}
    (h : getPathPackageDesc k = .ok d) :
    d.fullName = k ∧ (d.type = .Github → d.extra = none) ∧
    (d.type ≠ .Github → '_' ∉ d.version) := by
  unfold getPathPackageDesc at h
  split at h
  · unfold getGithubPackageDesc at h
    rcases hm : matchGithub k with _ | d'
    · rw [hm] at h; cases h
    · rw [hm] at h; injection h with h; subst h
      obtain ⟨ht, he, hf⟩ := matchGithub_inv hm
      exact ⟨hf, fun _ => he, fun hng => absurd ht hng⟩
  · split at h
    · cases h
    · split at h
      · cases h
      · injection h with h; subst h
        exact ⟨rfl, fun hg => absurd hg (pathType_ne_github k),
               fun _ => splitFirst_fst_no _ _⟩

theorem getDependencyPackageDesc_basic {n v : Str} {d : PnpmPackageDesc}
    (h : getDependencyPackageDesc n v = .ok d) :
    (d.type = .Github → d.extra = none) ∧ (d.type ≠ .Github → '_' ∉ d.version) := by
  unfold getDependencyPackageDesc at h
  repeat split at h
  all_goals exact ⟨(getPathPackageDesc_basic h).2.1, (getPathPackageDesc_basic h).2.2⟩

theorem lkp_ins_self {α : Type} (m : List (Str × α)) (k : Str) (v : α) :
    lkp (ins m k v) k = some v := by
  induction m with
  | nil => simp [ins, lkp]
  | cons hd tl ih =>
    by_cases h : hd.1 = k
    · simp [ins, h, lkp]
    · simp [ins, h, lkp, ih]

theorem lkp_ins_ne {α : Type} (m : List (Str × α)) (k k' : Str) (v : α) (h : k' ≠ k) :
    lkp (ins m k' v) k = lkp m k := by
  induction m with
  | nil => simp [ins, lkp, h]
  | cons hd tl ih =>
    by_cases hh : hd.1 = k'
    · simp [ins, hh, lkp, h]
    · simp [ins, hh, lkp, ih]

/-- Full characterisation of `getPackage` on a found snapshot. -/
theorem getPackage_spec (pkgs : List (Str × PackageSnapshot)) (specs : List (Str × Str))
    (d : PnpmPackageDesc) (rm : Bool) (snap : PackageSnapshot)
    (dep : NpmLockedPackageDependency) (pk' : List (Str × PackageSnapshot))
    (hsnap : lkp pkgs d.fullName = some snap)
    (hok : getPackage pkgs specs d rm = .ok (dep, pk')) :
    dep.version = d.version ∧ dep.resolved = none ∧
    dep.dev = (if snap.dev = some true then some true else none) ∧
    dep.requires = snap.dependencies ∧
    dep.integrity = snap.resolution.integrity ∧
    pk' = (if rm then ers pkgs d.fullName else pkgs) := by
  unfold getPackage at hok
  rw [hsnap] at hok
  cases rm
  all_goals (simp at hok; obtain ⟨h1, h2⟩ := hok; subst h1; subst h2; simp)

/-- `getPackage` fails exactly when the full key has no snapshot. -/
theorem getPackage_err (pkgs : List (Str × PackageSnapshot)) (specs : List (Str × Str))
    (d : PnpmPackageDesc) (rm : Bool)
    (hsnap : lkp pkgs d.fullName = none) :
    getPackage pkgs specs d rm =
      .error ("Failed to lookup ".toList ++ d.fullName ++ " in packages".toList) := by
  unfold getPackage
  rw [hsnap]

/- =====================================================================
Claim theorems.
===================================================================== -/

/-- Claim C2, counterexample: on a missing source file the conversion entry
point does not continue as a no-op — it aborts with its own error. -/
theorem c2_counterexample :
    processPnpmLockfile (chars "pnpm-lock.yaml") .notFound =
      .error (chars "Failed to load pnpm lock file pnpm-lock.yaml") := by
  rfl

/-- Claim C2 (amended): the loader `readPnpmLockfile` distinguishes
file-not-found (returned as `null`, not an error) from every other I/O
failure (propagated), but the entry point `processPnpmLockfile` then treats
the `null` as fatal and aborts with a load error of its own; other I/O
failures propagate unchanged, and a successfully read document is handed to
`processLockfile`. -/
theorem c2_loader_and_entrypoint (path : Str) :
    readPnpmLockfile .notFound = .ok none ∧
    (∀ e, readPnpmLockfile (.ioError e) = .error e) ∧
    (∀ l, readPnpmLockfile (.content l) = .ok (some l)) ∧
    processPnpmLockfile path .notFound =
      .error ("Failed to load pnpm lock file ".toList ++ path) ∧
    (∀ e, processPnpmLockfile path (.ioError e) = .error e) ∧
    (∀ l, processPnpmLockfile path (.content l) = processLockfile l) := by
  exact ⟨rfl, fun _ => rfl, fun _ => rfl, rfl, fun _ => rfl, fun _ => rfl⟩

/-- Claim C8: the resolver emits `dev := true` exactly when the snapshot is
explicitly marked dev, and otherwise leaves the field absent; it never
emits `dev := false`. -/
theorem c8_dev_flag (pkgs : List (Str × PackageSnapshot)) (specs : List (Str × Str))
    (d : PnpmPackageDesc) (rm : Bool) (snap : PackageSnapshot)
    (dep : NpmLockedPackageDependency) (pk' : List (Str × PackageSnapshot))
    (hsnap : lkp pkgs d.fullName = some snap)
    (hok : getPackage pkgs specs d rm = .ok (dep, pk')) :
    (snap.dev = some true → dep.dev = some true) ∧
    (snap.dev ≠ some true → dep.dev = none) ∧
    dep.dev ≠ some false := by
  obtain ⟨-, -, hdev, -, -, -⟩ := getPackage_spec pkgs specs d rm snap dep pk' hsnap hok
  constructor
  · intro h; rw [hdev, if_pos h]
  constructor
  · intro h; rw [hdev, if_neg h]
  · rw [hdev]; split <;> simp

theorem c8_witness :
    (wSnapDev.dev = some true → wDep.dev = some true) ∧
    (wSnapDev.dev ≠ some true → wDep.dev = none) ∧
    wDep.dev ≠ some false :=
  c8_dev_flag wPkgs [] wDesc false wSnapDev wDep wPk rfl rfl

/-- Claim C10: no record produced by the resolver carries `resolved`, and
hence its sub-dependency projection does not either. -/
theorem c10_no_resolved (pkgs : List (Str × PackageSnapshot)) (specs : List (Str × Str))
    (d : PnpmPackageDesc) (rm : Bool)
    (dep : NpmLockedPackageDependency) (pk' : List (Str × PackageSnapshot))
    (hok : getPackage pkgs specs d rm = .ok (dep, pk')) :
    dep.resolved = none ∧ (getSubDependencyFromDependency dep).resolved = none := by
  rcases hsnap : lkp pkgs d.fullName with _ | snap
  · rw [getPackage_err pkgs specs d rm hsnap] at hok; cases hok
  · obtain ⟨-, hres, -, -, -, -⟩ := getPackage_spec pkgs specs d rm snap dep pk' hsnap hok
    exact ⟨hres, by simp [getSubDependencyFromDependency, hres]⟩

theorem c10_witness :
    wDep.resolved = none ∧ (getSubDependencyFromDependency wDep).resolved = none :=
  c10_no_resolved wPkgs [] wDesc false wDep wPk rfl

/-- Claim C9, counterexample: a source document that reaches Phase 3 with a
requires entry whose full key is not staged and whose bare name has no root
entry — the conversion aborts with the undefined-property type error, so the
lookup does take the absent branch. -/
theorem c9_counterexample :
    processLockfile cdoc9 = .error jsUndefinedVersionError := by
  rfl

/-- Claim C9 (amended): when a requires entry's full key is absent from the
staging map and the root map has no entry for the bare name, Phase 3 reads
`version` of `undefined` and the conversion aborts with a type error; hence
on every conversion that proceeds past such an entry the root-map lookup
found an existing record. -/
theorem c9_missing_root (deps sub : List (Str × NpmLockedPackageDependency)) (key : Str)
    (val : NpmLockedPackageDependency) (name ver : Str) (d : PnpmPackageDesc)
    (hd : getDependencyPackageDesc name ver = .ok d)
    (hsub : lkp sub d.fullName = none)
    (hroot : lkp deps name = none) :
    phase3Entry deps sub key val name ver = .error jsUndefinedVersionError := by
  simp [phase3Entry, hd, hsub, hroot]

theorem c9_witness :
    phase3Entry [] [] (chars "r") { version := [] } (chars "bar") (chars "2.0.0") =
      .error jsUndefinedVersionError :=
  c9_missing_root [] [] (chars "r") { version := [] } (chars "bar") (chars "2.0.0")
    ⟨.Version, chars "/bar/2.0.0", chars "bar", chars "2.0.0", none⟩ rfl rfl rfl

/-- Claim C3, counterexample: in `cdoc3` the root `bar` resolves to the very
version `1.0.0` that `foo`'s requires entry declares, yet processing that
entry rewrites `foo.requires.bar` from `/bar/1.0.0_peer` to `1.0.0` — the
conversion does not continue without modifying the root map. -/
theorem c3_counterexample :
    getDependencyPackageDesc (chars "bar") (chars "/bar/1.0.0_peer") =
      .ok ⟨.Version, chars "/bar/1.0.0_peer", chars "bar", chars "1.0.0", some (chars "peer")⟩ ∧
    processLockfile cdoc3 = .ok c3out ∧
    (lkp c3out.dependencies (chars "bar")).map NpmLockedPackageDependency.version =
      some (chars "1.0.0") ∧
    (lkp cdoc3.packages (chars "/foo/1.0.0")).map PackageSnapshot.dependencies =
      some (some [(chars "bar", chars "/bar/1.0.0_peer")]) ∧
    (lkp c3out.dependencies (chars "foo")).map NpmLockedPackageDependency.requires =
      some (some [(chars "bar", chars "1.0.0")]) := by
  exact ⟨rfl, rfl, rfl, rfl, rfl⟩

/-- Claim C3 (amended): for a requires entry whose full key is not staged
and whose name has a root entry, processing fails exactly when the root's
version differs from the descriptor's version, the error message carrying
the offending full key; on equal versions it continues, changing the root
record only by the requires-entry rewrite applied to descriptors with
`extra` data or the custom-registry encoding. -/
theorem c3_root_version_check (deps sub : List (Str × NpmLockedPackageDependency)) (key : Str)
    (val rootDep : NpmLockedPackageDependency) (name ver : Str) (d : PnpmPackageDesc)
    (hd : getDependencyPackageDesc name ver = .ok d)
    (hsub : lkp sub d.fullName = none)
    (hroot : lkp deps name = some rootDep) :
    (rootDep.version ≠ d.version →
      phase3Entry deps sub key val name ver =
        .error ("Failed to lookup ".toList ++ d.fullName ++
                " in dependencies; used by ".toList ++ key) ∧
      ∃ p s, ("Failed to lookup ".toList ++ d.fullName ++
              " in dependencies; used by ".toList ++ key) = p ++ d.fullName ++ s) ∧
    (rootDep.version = d.version →
      phase3Entry deps sub key val name ver =
        .ok (if d.extra ≠ none ∨ d.type = .Uri then
               { val with requires := some (ins (val.requires.getD []) name d.version) }
             else val)) := by
  constructor
  · intro hne
    refine ⟨by simp [phase3Entry, hd, hsub, hroot, hne],
            ⟨"Failed to lookup ".toList, " in dependencies; used by ".toList ++ key, by simp⟩⟩
  · intro heq
    by_cases hcond : d.extra ≠ none ∨ d.type = .Uri <;>
      simp [phase3Entry, hd, hsub, hroot, heq, hcond]

theorem c3_witness :
    (({ version := chars "1.0.0" } : NpmLockedPackageDependency).version ≠ w3desc.version →
      phase3Entry w3deps [] (chars "/foo/1.0.0") w3val (chars "bar") (chars "/bar/1.0.0_peer") =
        .error ("Failed to lookup ".toList ++ w3desc.fullName ++
                " in dependencies; used by ".toList ++ chars "/foo/1.0.0") ∧
      ∃ p s, ("Failed to lookup ".toList ++ w3desc.fullName ++
              " in dependencies; used by ".toList ++ chars "/foo/1.0.0") =
        p ++ w3desc.fullName ++ s) ∧
    (({ version := chars "1.0.0" } : NpmLockedPackageDependency).version = w3desc.version →
      phase3Entry w3deps [] (chars "/foo/1.0.0") w3val (chars "bar") (chars "/bar/1.0.0_peer") =
        .ok (if w3desc.extra ≠ none ∨ w3desc.type = .Uri then
               { w3val with requires := some (ins (w3val.requires.getD []) (chars "bar") w3desc.version) }
             else w3val)) :=
  c3_root_version_check w3deps [] (chars "/foo/1.0.0") w3val { version := chars "1.0.0" }
    (chars "bar") (chars "/bar/1.0.0_peer") w3desc rfl rfl rfl

/-- Claim C6: a successfully processed requires entry is rewritten to the
bare resolved version (an underscore-free string) exactly when its
descriptor carries `extra` data or used the custom-registry encoding;
otherwise the requires map is left unchanged. -/
theorem c6_requires_rewrite (deps sub : List (Str × NpmLockedPackageDependency)) (key : Str)
    (val val' : NpmLockedPackageDependency) (name ver : Str) (d : PnpmPackageDesc)
    (hd : getDependencyPackageDesc name ver = .ok d)
    (hrun : phase3Entry deps sub key val name ver = .ok val') :
    (¬(d.extra ≠ none ∨ d.type = .Uri) → val'.requires = val.requires) ∧
    ((d.extra ≠ none ∨ d.type = .Uri) →
      val'.requires = some (ins (val.requires.getD []) name d.version) ∧
      lkp (val'.requires.getD []) name = some d.version ∧ '_' ∉ d.version) := by
  have hng : (d.extra ≠ none ∨ d.type = .Uri) → d.type ≠ .Github := by
    rintro (hex | hu) hg
    · exact hex ((getDependencyPackageDesc_basic hd).1 hg)
    · rw [hu] at hg; cases hg
  have hus : (d.extra ≠ none ∨ d.type = .Uri) → '_' ∉ d.version := fun hc =>
    (getDependencyPackageDesc_basic hd).2 (hng hc)
  rcases hs : lkp sub d.fullName with _ | dep
  · rcases hr : lkp deps name with _ | rootDep
    · simp [phase3Entry, hd, hs, hr] at hrun
    · by_cases hv : rootDep.version ≠ d.version
      · simp [phase3Entry, hd, hs, hr, hv] at hrun
      · by_cases hcond : d.extra ≠ none ∨ d.type = .Uri
        · simp only [phase3Entry, hd, hs, hr, if_neg hv, if_pos hcond] at hrun
          injection hrun with hrun
          subst hrun
          exact ⟨fun hnc => absurd hcond hnc,
                 fun hc => ⟨rfl, lkp_ins_self _ _ _, hus hc⟩⟩
        · simp only [phase3Entry, hd, hs, hr, if_neg hv, if_neg hcond] at hrun
          injection hrun with hrun
          subst hrun
          exact ⟨fun _ => rfl, fun hc => absurd hc hcond⟩
  · by_cases hcond : d.extra ≠ none ∨ d.type = .Uri
    · simp only [phase3Entry, hd, hs, if_pos hcond] at hrun
      injection hrun with hrun
      subst hrun
      exact ⟨fun hnc => absurd hcond hnc,
             fun hc => ⟨rfl, lkp_ins_self _ _ _, hus hc⟩⟩
    · simp only [phase3Entry, hd, hs, if_neg hcond] at hrun
      injection hrun with hrun
      subst hrun
      exact ⟨fun _ => rfl, fun hc => absurd hc hcond⟩

theorem c6_witness :
    (¬(w3desc.extra ≠ none ∨ w3desc.type = .Uri) → w3res.requires = w3val.requires) ∧
    ((w3desc.extra ≠ none ∨ w3desc.type = .Uri) →
      w3res.requires = some (ins (w3val.requires.getD []) (chars "bar") w3desc.version) ∧
      lkp (w3res.requires.getD []) (chars "bar") = some w3desc.version ∧
      '_' ∉ w3desc.version) :=
  c6_requires_rewrite w3deps [] (chars "/foo/1.0.0") w3val w3res
    (chars "bar") (chars "/bar/1.0.0_peer") w3desc rfl rfl

theorem breakSlash_append (a b : Str) (h : '/' ∉ a) :
    breakSlash (a ++ '/' :: b) = some (a, b) := by
  induction a with
  | nil => rfl
  | cons c r ih =>
    have hc : c ≠ '/' := fun hh => h (hh ▸ List.mem_cons_self c r)
    have hr : '/' ∉ r := fun hm => h (List.mem_cons_of_mem c hm)
    simp only [List.cons_append, breakSlash, if_neg hc, List.append_eq, ih hr]

theorem breakSlash_none (a : Str) (h : '/' ∉ a) : breakSlash a = none := by
  induction a with
  | nil => rfl
  | cons c r ih =>
    have hc : c ≠ '/' := fun hh => h (hh ▸ List.mem_cons_self c r)
    have hr : '/' ∉ r := fun hm => h (List.mem_cons_of_mem c hm)
    simp only [breakSlash, if_neg hc, ih hr]

theorem breakSlash_inv {s : Str} {a b : Str} (h : breakSlash s = some (a, b)) :
    s = a ++ '/' :: b ∧ '/' ∉ a := by
  induction s generalizing a b with
  | nil => cases h
  | cons c r ih =>
    by_cases hc : c = '/'
    · subst hc
      simp only [breakSlash, if_pos rfl, Option.some.injEq, Prod.mk.injEq] at h
      obtain ⟨rfl, rfl⟩ := h
      exact ⟨rfl, by simp⟩
    · simp only [breakSlash, if_neg hc] at h
      rcases hrec : breakSlash r with _ | ⟨a', b'⟩ <;> rw [hrec] at h
      · cases h
      · simp only [Option.some.injEq, Prod.mk.injEq] at h
        obtain ⟨rfl, rfl⟩ := h
        obtain ⟨hs, hna⟩ := ih hrec
        refine ⟨by simp [hs], ?_⟩
        simp only [List.mem_cons]
        rintro (rfl | hm)
        · exact hc rfl
        · exact hna hm

theorem splitFirst_not_mem (t : Char) (s : Str) (h : t ∉ s) :
    splitFirst t s = (s, none) := by
  induction s with
  | nil => rfl
  | cons c r ih =>
    have hc : c ≠ t := fun hh => h (hh ▸ List.mem_cons_self c r)
    have hr : t ∉ r := fun hm => h (List.mem_cons_of_mem c hm)
    simp only [splitFirst, if_neg hc, ih hr]

theorem splitFirst_append (t : Char) (a b : Str) (h : t ∉ a) :
    splitFirst t (a ++ t :: b) = (a, some b) := by
  induction a with
  | nil => simp [splitFirst]
  | cons c r ih =>
    have hc : c ≠ t := fun hh => h (hh ▸ List.mem_cons_self c r)
    have hr : t ∉ r := fun hm => h (List.mem_cons_of_mem c hm)
    simp only [List.cons_append, splitFirst, if_neg hc, List.append_eq, ih hr]

theorem isPrefixOf_append_self (p t : Str) : p.isPrefixOf (p ++ t) = true := by
  induction p with
  | nil => simp
  | cons c r ih => simp [List.isPrefixOf, ih]

theorem isPrefixOf_ex {p k : Str} (h : p.isPrefixOf k = true) : ∃ t, k = p ++ t := by
  induction p generalizing k with
  | nil => exact ⟨k, rfl⟩
  | cons c r ih =>
    rcases k with _ | ⟨c', k'⟩
    · cases h
    · simp only [List.isPrefixOf, Bool.and_eq_true, beq_iff_eq] at h
      obtain ⟨rfl, h2⟩ := h
      obtain ⟨t, rfl⟩ := ih h2
      exact ⟨t, rfl⟩

theorem append_slash_inj {a c : Str} {b d : Str} (ha : '/' ∉ a) (hc : '/' ∉ c)
    (h : a ++ '/' :: b = c ++ '/' :: d) : a = c ∧ b = d := by
  induction a generalizing c with
  | nil =>
    rcases c with _ | ⟨x, c'⟩
    · simpa using h
    · simp only [List.nil_append, List.cons_append, List.cons.injEq] at h
      obtain ⟨rfl, -⟩ := h
      exact absurd (List.mem_cons_self _ _) hc
  | cons x a' ih =>
    rcases c with _ | ⟨y, c'⟩
    · simp only [List.nil_append, List.cons_append, List.cons.injEq] at h
      obtain ⟨rfl, -⟩ := h
      exact absurd (List.mem_cons_self _ _) ha
    · simp only [List.cons_append, List.cons.injEq] at h
      obtain ⟨rfl, h2⟩ := h
      have ha' : '/' ∉ a' := fun hm => ha (List.mem_cons_of_mem _ hm)
      have hc' : '/' ∉ c' := fun hm => hc (List.mem_cons_of_mem _ hm)
      obtain ⟨rfl, rfl⟩ := ih ha' hc' h2
      exact ⟨rfl, rfl⟩

theorem gh_prefix_forces {s0 r : Str} (hs0 : '/' ∉ s0)
    (h : ghPrefix.isPrefixOf (s0 ++ '/' :: r) = true) : s0 = "github.com".toList := by
  obtain ⟨t, ht⟩ := isPrefixOf_ex h
  have hg : ghPrefix = "github.com".toList ++ '/' :: [] := rfl
  rw [hg] at ht
  have hng : '/' ∉ "github.com".toList := by decide
  have := append_slash_inj hs0 hng (by simpa using ht)
  exact this.1
theorem parsePathName_plain (nm rest : Str) (h1 : nm ≠ []) (h2 : '/' ∉ nm)
    (h3 : ∀ t, nm ≠ '@' :: t) :
    parsePathName (nm ++ '/' :: rest) = some (nm, rest) := by
  rcases nm with _ | ⟨c, nm'⟩
  · exact absurd rfl h1
  · have hc : c ≠ '@' := fun hh => h3 nm' (by rw [hh])
    have hbs := breakSlash_append (c :: nm') rest h2
    rw [List.cons_append] at hbs
    simp only [parsePathName, List.cons_append, if_neg hc, hbs]
    simp

theorem parsePathName_scoped (a b rest : Str) (ha : a ≠ []) (hb : b ≠ [])
    (h2a : '/' ∉ a) (h2b : '/' ∉ b) :
    parsePathName ('@' :: (a ++ '/' :: (b ++ '/' :: rest))) =
      some ('@' :: (a ++ '/' :: b), rest) := by
  have hb1 : breakSlash (a ++ '/' :: (b ++ '/' :: rest)) = some (a, b ++ '/' :: rest) :=
    breakSlash_append _ _ h2a
  have hb2 : breakSlash (b ++ '/' :: rest) = some (b, rest) := breakSlash_append _ _ h2b
  simp only [parsePathName, hb1, hb2]
  simp [ha, hb]
/-- Claim C5: a path-form key parses with kind `Version` on a leading
slash and `Uri` on a non-empty first segment; the final segment splits at
its first underscore into version and optional extra; and a scoped name
`@scope/pkg` is kept as one name spanning two path components. -/
theorem c5_path_parse (s0 nm verFull vn : Str) (ex : Option Str)
    (hs0 : '/' ∉ s0) (hgh : s0 ≠ "github.com".toList)
    (hnm : (nm ≠ [] ∧ '/' ∉ nm ∧ ∀ t, nm ≠ '@' :: t) ∨
           (∃ a b, nm = '@' :: (a ++ '/' :: b) ∧ a ≠ [] ∧ b ≠ [] ∧ '/' ∉ a ∧ '/' ∉ b))
    (hv : ('_' ∉ verFull ∧ vn = verFull ∧ ex = none) ∨
          (∃ t2, verFull = vn ++ '_' :: t2 ∧ '_' ∉ vn ∧ ex = some t2)) :
    getPathPackageDesc (s0 ++ '/' :: (nm ++ '/' :: verFull)) =
      .ok ⟨if s0 = [] then .Version else .Uri,
           s0 ++ '/' :: (nm ++ '/' :: verFull), nm, vn, ex⟩ := by
  have hpre : ghPrefix.isPrefixOf (s0 ++ '/' :: (nm ++ '/' :: verFull)) = false := by
    rcases hb : ghPrefix.isPrefixOf (s0 ++ '/' :: (nm ++ '/' :: verFull)) with _ | _
    · rfl
    · exact absurd (gh_prefix_forces hs0 hb) hgh
  have hbs : breakSlash (s0 ++ '/' :: (nm ++ '/' :: verFull)) =
      some (s0, nm ++ '/' :: verFull) := breakSlash_append _ _ hs0
  have hsf : splitFirst '_' verFull = (vn, ex) := by
    rcases hv with ⟨h1, rfl, rfl⟩ | ⟨t2, rfl, h1, rfl⟩
    · exact splitFirst_not_mem _ _ h1
    · exact splitFirst_append _ _ _ h1
  have hpp : parsePathName (nm ++ '/' :: verFull) = some (nm, verFull) := by
    rcases hnm with ⟨h1, h2, h3⟩ | ⟨a, b, rfl, ha, hb2, h2a, h2b⟩
    · exact parsePathName_plain nm verFull h1 h2 h3
    · rw [show ('@' :: (a ++ '/' :: b)) ++ '/' :: verFull =
            '@' :: (a ++ '/' :: (b ++ '/' :: verFull)) from by simp]
      exact parsePathName_scoped a b verFull ha hb2 h2a h2b
  have htype : (match s0 ++ '/' :: (nm ++ '/' :: verFull) with
      | c :: _ => if c = '/' then PnpmPackageDescType.Version else PnpmPackageDescType.Uri
      | [] => PnpmPackageDescType.Uri) =
      (if s0 = [] then PnpmPackageDescType.Version else PnpmPackageDescType.Uri) := by
    rcases s0 with _ | ⟨c, s0c⟩
    · simp
    · have hc : c ≠ '/' := fun hh => hs0 (hh ▸ List.mem_cons_self _ _)
      simp [List.cons_append, hc]
  simp only [getPathPackageDesc, hpre, Bool.false_eq_true, if_false, hbs, hpp, hsf, htype]

theorem hexAll_no_slash {h : Str} (hh : h.all isHexDigitLower = true) : '/' ∉ h := by
  intro hm
  have hc := List.all_eq_true.mp hh _ hm
  have hf : isHexDigitLower '/' = false := by decide
  rw [hf] at hc
  cases hc

theorem ghHeadMatch_append (t : Str) : ghHeadMatch (ghPrefix ++ t) = some t := rfl

/-- Claim C7: every key of the version-control grammar parses to kind
`Github` with the synthesized `github:<owner>/<repo>#<commit>` version and
the repository short name; conversely a key starting with the host prefix
only parses successfully when it has that exact shape. -/
theorem c7_github_parse :
    (∀ owner repo hash : Str, owner ≠ [] → repo ≠ [] → '/' ∉ owner → '/' ∉ repo →
      hash.length = 40 → hash.all isHexDigitLower = true →
      getPathPackageDesc (ghPrefix ++ owner ++ '/' :: repo ++ '/' :: hash) =
        .ok ⟨.Github, ghPrefix ++ owner ++ '/' :: repo ++ '/' :: hash, repo,
             "github:".toList ++ owner ++ '/' :: repo ++ '#' :: hash, none⟩) ∧
    (∀ (k : Str) (d : PnpmPackageDesc), ghPrefix.isPrefixOf k = true →
      getPathPackageDesc k = .ok d → GithubShape k) := by
  constructor
  · intro o r h ho hr hno hnr hlen hhex
    have hassoc : ghPrefix ++ o ++ '/' :: r ++ '/' :: h =
        ghPrefix ++ (o ++ '/' :: (r ++ '/' :: h)) := by simp
    rw [hassoc]
    have hpre := isPrefixOf_append_self ghPrefix (o ++ '/' :: (r ++ '/' :: h))
    have hb1 : breakSlash (o ++ '/' :: (r ++ '/' :: h)) = some (o, r ++ '/' :: h) :=
      breakSlash_append _ _ hno
    have hb2 : breakSlash (r ++ '/' :: h) = some (r, h) := breakSlash_append _ _ hnr
    simp only [getPathPackageDesc, hpre, if_true, getGithubPackageDesc, matchGithub,
               ghHeadMatch_append, hb1, hb2]
    simp [ho, hr, hlen, hhex]
  · intro k d hpre hok
    obtain ⟨t, rfl⟩ := isPrefixOf_ex hpre
    rw [getPathPackageDesc.eq_def, if_pos hpre] at hok
    unfold getGithubPackageDesc at hok
    rcases hm : matchGithub (ghPrefix ++ t) with _ | d2 <;> rw [hm] at hok
    · cases hok
    · injection hok with hok
      subst hok
      simp only [matchGithub, ghHeadMatch_append] at hm
      rcases hb1 : breakSlash t with _ | ⟨o, rest1⟩ <;> rw [hb1] at hm <;> dsimp only at hm
      · cases hm
      · rcases hb2 : breakSlash rest1 with _ | ⟨r, h⟩ <;> rw [hb2] at hm <;> dsimp only at hm
        · cases hm
        · split at hm
          · obtain ⟨hs1, hno⟩ := breakSlash_inv hb1
            obtain ⟨hs2, hnr⟩ := breakSlash_inv hb2
            rename_i hcond
            obtain ⟨ho, hr, hlen, hhex⟩ := hcond
            refine ⟨o, r, h, ?_, ho, hr, hno, hnr, hlen, hhex⟩
            rw [hs1, hs2]
            simp
          · cases hm

theorem c5_witness :
    getPathPackageDesc (chars "/@scope/pkg/1.2.3_x") =
      .ok ⟨.Version, chars "/@scope/pkg/1.2.3_x", chars "@scope/pkg",
           chars "1.2.3", some (chars "x")⟩ := by
  have h := c5_path_parse [] (chars "@scope/pkg") (chars "1.2.3_x") (chars "1.2.3")
    (some (chars "x")) (by decide) (by decide)
    (Or.inr ⟨chars "scope", chars "pkg", by decide, by decide, by decide, by decide, by decide⟩)
    (Or.inr ⟨chars "x", by decide, by decide, rfl⟩)
  exact h

theorem c7_witness :
    getPathPackageDesc (chars "github.com/owner/repo/0123456789abcdef0123456789abcdef01234567") =
      .ok ⟨.Github,
           chars "github.com/owner/repo/0123456789abcdef0123456789abcdef01234567",
           chars "repo",
           chars "github:owner/repo#0123456789abcdef0123456789abcdef01234567", none⟩ ∧
    GithubShape (chars "github.com/owner/repo/0123456789abcdef0123456789abcdef01234567") := by
  have h1 := c7_github_parse.1 (chars "owner") (chars "repo")
    (chars "0123456789abcdef0123456789abcdef01234567")
    (by decide) (by decide) (by decide) (by decide) (by decide) (by decide)
  exact ⟨h1, c7_github_parse.2 _ _ (by decide) h1⟩

theorem getPackage_noremove_snd (pkgs : List (Str × PackageSnapshot)) (specs : List (Str × Str))
    (d : PnpmPackageDesc) (p : NpmLockedPackageDependency) (q : List (Str × PackageSnapshot))
    (h : getPackage pkgs specs d false = .ok (p, q)) : q = pkgs := by
  rcases hsnap : lkp pkgs d.fullName with _ | snap
  · rw [getPackage_err pkgs specs d false hsnap] at h; cases h
  · exact ((getPackage_spec pkgs specs d false snap p q hsnap h).2.2.2.2.2).trans (by simp)

theorem phase1Entries_append (specs : List (Str × Str)) (a b : List (Str × Str)) :
    ∀ st, phase1Entries specs st (a ++ b) =
      match phase1Entries specs st a with
      | .error m => .error m
      | .ok st2 => phase1Entries specs st2 b := by
  induction a with
  | nil => intro st; rfl
  | cons e rest ih =>
    rintro ⟨deps, pkgs⟩
    obtain ⟨n, v⟩ := e
    simp only [List.cons_append, phase1Entries]
    rcases hd : getDependencyPackageDesc n v with m | d
    · rfl
    · dsimp only
      rcases hp : getPackage pkgs specs d true with m | ⟨dep, pkgs2⟩
      · rfl
      · exact ih _

theorem phase1Entries_names (specs : List (Str × Str)) (n : Str) :
    ∀ (es : List (Str × Str)) st st2,
      (∀ p ∈ es, ∀ d2 : PnpmPackageDesc,
        getDependencyPackageDesc p.1 p.2 = .ok d2 → d2.name ≠ n) →
      phase1Entries specs st es = .ok st2 →
      lkp st2.1 n = lkp st.1 n := by
  intro es
  induction es with
  | nil =>
    rintro st st2 - h
    cases h
    rfl
  | cons e rest ih =>
    rintro ⟨deps, pkgs⟩ st2 hn h
    obtain ⟨nm, v⟩ := e
    simp only [phase1Entries] at h
    rcases hd : getDependencyPackageDesc nm v with m | d <;> rw [hd] at h <;> dsimp only at h
    · cases h
    · rcases hp : getPackage pkgs specs d true with m | ⟨dep, pkgs2⟩ <;> rw [hp] at h <;>
        dsimp only at h
      · cases h
      · have hne : d.name ≠ n := hn (nm, v) (List.mem_cons_self _ _) d hd
        have := ih (ins deps d.name dep, pkgs2) st2
          (fun p hp2 => hn p (List.mem_cons_of_mem _ hp2)) h
        rw [this]
        exact lkp_ins_ne deps n d.name dep hne

theorem phase2_pres_deps (pkgs : List (Str × PackageSnapshot)) (specs : List (Str × Str))
    (n : Str) (w : NpmLockedPackageDependency) :
    ∀ (es : List (Str × PackageSnapshot)) deps sub deps2 sub2,
      phase2 pkgs specs (deps, sub) es = .ok (deps2, sub2) →
      lkp deps n = some w →
      lkp deps2 n = some w := by
  intro es
  induction es with
  | nil =>
    rintro deps sub deps2 sub2 h hk
    cases h
    exact hk
  | cons e rest ih =>
    rintro deps sub deps2 sub2 h hk
    obtain ⟨key, snap⟩ := e
    simp only [phase2] at h
    rcases hd : getPathPackageDesc key with m | d <;> rw [hd] at h <;> dsimp only at h
    · cases h
    · rcases hp : getPackage pkgs specs d false with m | ⟨pkg, x⟩ <;> rw [hp] at h <;>
        dsimp only at h
      · cases h
      · by_cases hin : (lkp deps d.name).isSome
        · rw [if_pos hin] at h
          exact ih deps _ deps2 sub2 h hk
        · rw [if_neg hin] at h
          have hnone : lkp deps d.name = none := by
            rcases hq : lkp deps d.name with _ | q
            · rfl
            · rw [hq] at hin; simp at hin
          have hne : d.name ≠ n := fun hh => by rw [hh, hk] at hnone; cases hnone
          refine ih _ _ deps2 sub2 h ?_
          rw [lkp_ins_ne deps n d.name pkg hne]
          exact hk
theorem SameCore_refl (a : NpmLockedPackageDependency) : SameCore a a :=
  ⟨rfl, rfl, rfl, rfl, rfl⟩

theorem SameCore_trans {a b c : NpmLockedPackageDependency}
    (h1 : SameCore a b) (h2 : SameCore b c) : SameCore a c :=
  ⟨h1.1.trans h2.1, h1.2.1.trans h2.2.1, h1.2.2.1.trans h2.2.2.1,
   h1.2.2.2.1.trans h2.2.2.2.1, h1.2.2.2.2.trans h2.2.2.2.2⟩

theorem phase3Entry_core (deps sub : List (Str × NpmLockedPackageDependency)) (key : Str)
    (val val2 : NpmLockedPackageDependency) (name ver : Str)
    (h : phase3Entry deps sub key val name ver = .ok val2) : SameCore val2 val := by
  rcases hd : getDependencyPackageDesc name ver with m | d
  · simp [phase3Entry, hd] at h
  · rcases hs : lkp sub d.fullName with _ | dep
    · rcases hr : lkp deps name with _ | rootDep
      · simp [phase3Entry, hd, hs, hr] at h
      · by_cases hv : rootDep.version ≠ d.version
        · simp [phase3Entry, hd, hs, hr, hv] at h
        · by_cases hcond : d.extra ≠ none ∨ d.type = .Uri
          · simp only [phase3Entry, hd, hs, hr, if_neg hv, if_pos hcond] at h
            injection h with h
            subst h
            exact ⟨rfl, rfl, rfl, rfl, rfl⟩
          · simp only [phase3Entry, hd, hs, hr, if_neg hv, if_neg hcond] at h
            injection h with h
            subst h
            exact SameCore_refl val
    · by_cases hcond : d.extra ≠ none ∨ d.type = .Uri
      · simp only [phase3Entry, hd, hs, if_pos hcond] at h
        injection h with h
        subst h
        exact ⟨rfl, rfl, rfl, rfl, rfl⟩
      · simp only [phase3Entry, hd, hs, if_neg hcond] at h
        injection h with h
        subst h
        exact ⟨rfl, rfl, rfl, rfl, rfl⟩

theorem phase3ReqFold_core (deps sub : List (Str × NpmLockedPackageDependency)) (key : Str) :
    ∀ (rs : List (Str × Str)) (val val2 : NpmLockedPackageDependency),
      phase3ReqFold deps sub key val rs = .ok val2 → SameCore val2 val := by
  intro rs
  induction rs with
  | nil =>
    intro val val2 h
    cases h
    exact SameCore_refl _
  | cons e rest ih =>
    intro val val2 h
    obtain ⟨nm, v⟩ := e
    simp only [phase3ReqFold] at h
    rcases he : phase3Entry deps sub key val nm v with m | val1 <;> rw [he] at h <;>
      dsimp only at h
    · cases h
    · exact SameCore_trans (ih val1 val2 h) (phase3Entry_core deps sub key val val1 nm v he)

theorem phase3_pres (sub : List (Str × NpmLockedPackageDependency)) :
    ∀ (es deps deps2 : List (Str × NpmLockedPackageDependency)),
      (keysOf es).Nodup →
      (∀ kv ∈ es, ∃ w, lkp deps kv.1 = some w ∧ SameCore kv.2 w) →
      phase3 sub deps es = .ok deps2 →
      ∀ n w, lkp deps n = some w →
      ∃ w2, lkp deps2 n = some w2 ∧ SameCore w2 w := by
  intro es
  induction es with
  | nil =>
    intro deps deps2 hnd hes h n w hk
    cases h
    exact ⟨w, hk, SameCore_refl w⟩
  | cons e rest ih =>
    intro deps deps2 hnd hes h n w hk
    obtain ⟨key, val⟩ := e
    simp only [phase3] at h
    rcases hreq : val.requires with _ | rs <;> rw [hreq] at h <;> dsimp only at h
    · exact ih deps deps2 (by simpa [keysOf] using hnd.of_cons)
        (fun kv hm => hes kv (List.mem_cons_of_mem _ hm)) h n w hk
    · rcases hf : phase3ReqFold deps sub key val rs with m | val2 <;> rw [hf] at h <;>
        dsimp only at h
      · cases h
      · have hkey : key ∉ keysOf rest := by
          have := hnd
          simp only [keysOf, List.map_cons, List.nodup_cons] at this
          exact this.1
        have hes2 : ∀ kv ∈ rest, ∃ w3, lkp (ins deps key val2) kv.1 = some w3 ∧ SameCore kv.2 w3 := by
          intro kv hm
          have hne : kv.1 ≠ key := by
            intro hh
            exact hkey (hh ▸ List.mem_map_of_mem Prod.fst hm)
          obtain ⟨w3, hw3, hc3⟩ := hes kv (List.mem_cons_of_mem _ hm)
          refine ⟨w3, ?_, hc3⟩
          rw [lkp_ins_ne deps kv.1 key val2 hne.symm]
          exact hw3
        by_cases hn : n = key
        · subst hn
          obtain ⟨w0, hw0, hc0⟩ := hes (n, val) (List.mem_cons_self _ _)
          have hw : w = w0 := by rw [hk] at hw0; injection hw0
          subst hw
          have hcore : SameCore val2 w := SameCore_trans (phase3ReqFold_core _ _ _ _ _ _ hf)
            (by simpa using hc0)
          refine ih _ deps2 (by simpa [keysOf] using hnd.of_cons) hes2 h n val2 ?_ |>.imp ?_
          · exact lkp_ins_self _ _ _
          · rintro w2 ⟨hw2, hcc⟩
            exact ⟨hw2, SameCore_trans hcc hcore⟩
        · have : lkp (ins deps key val2) n = some w := by
            rw [lkp_ins_ne _ _ _ _ (fun hh => hn hh.symm)]
            exact hk
          exact ih _ deps2 (by simpa [keysOf] using hnd.of_cons) hes2 h n w this

theorem keysOf_ins {α : Type} (m : List (Str × α)) (k : Str) (v : α) :
    keysOf (ins m k v) = (if k ∈ keysOf m then keysOf m else keysOf m ++ [k]) := by
  induction m with
  | nil => rfl
  | cons hd tl ih =>
    by_cases h : hd.1 = k
    · have hmem : k ∈ keysOf (hd :: tl) := by
        simp only [keysOf, List.map_cons]
        exact h ▸ List.mem_cons_self _ _
      rw [if_pos hmem]
      simp only [ins, if_pos h, keysOf, List.map_cons]
    · simp only [ins, if_neg h, keysOf, List.map_cons, ih]
      simp only [keysOf] at ih
      by_cases hm : k ∈ List.map Prod.fst tl
      · rw [if_pos (List.mem_cons_of_mem _ hm), ih, if_pos hm]
      · have hm2 : k ∉ hd.1 :: List.map Prod.fst tl := by
          simp only [List.mem_cons]
          rintro (hh | hh)
          · exact h hh.symm
          · exact hm hh
        rw [if_neg hm2, ih, if_neg hm]
        simp

theorem nodup_ins {α : Type} (m : List (Str × α)) (k : Str) (v : α)
    (h : (keysOf m).Nodup) : (keysOf (ins m k v)).Nodup := by
  rw [keysOf_ins]
  by_cases hm : k ∈ keysOf m
  · rw [if_pos hm]; exact h
  · rw [if_neg hm]
    refine List.Nodup.append h (List.nodup_singleton k) ?_
    intro a ha hb
    rw [List.mem_singleton.mp hb] at ha
    exact hm ha

theorem lkp_of_mem {α : Type} (m : List (Str × α)) (k : Str) (v : α)
    (hnd : (keysOf m).Nodup) (hm : (k, v) ∈ m) : lkp m k = some v := by
  induction m with
  | nil => cases hm
  | cons hd tl ih =>
    rcases List.mem_cons.mp hm with rfl | hm2
    · show (if k = k then some v else lkp tl k) = some v
      rw [if_pos rfl]
    · have hk : k ∈ keysOf tl := by
        have h2 := List.mem_map_of_mem Prod.fst hm2
        simpa only [keysOf] using h2
      have hne : hd.1 ≠ k := by
        intro hh
        simp only [keysOf, List.map_cons, List.nodup_cons] at hnd
        exact hnd.1 (hh ▸ hk)
      simp only [lkp, if_neg hne]
      exact ih (by
        simp only [keysOf, List.map_cons, List.nodup_cons] at hnd
        exact hnd.2) hm2

theorem phase1Entries_nodup (specs : List (Str × Str)) :
    ∀ (es : List (Str × Str)) st st2,
      (keysOf st.1).Nodup →
      phase1Entries specs st es = .ok st2 →
      (keysOf st2.1).Nodup := by
  intro es
  induction es with
  | nil =>
    rintro st st2 hnd h
    cases h
    exact hnd
  | cons e rest ih =>
    rintro ⟨deps, pkgs⟩ st2 hnd h
    obtain ⟨nm, v⟩ := e
    simp only [phase1Entries] at h
    rcases hd : getDependencyPackageDesc nm v with m | d <;> rw [hd] at h <;> dsimp only at h
    · cases h
    · rcases hp : getPackage pkgs specs d true with m | ⟨dep, pkgs2⟩ <;> rw [hp] at h <;>
        dsimp only at h
      · cases h
      · exact ih _ st2 (nodup_ins deps d.name dep hnd) h

theorem phase2_nodup (pkgs : List (Str × PackageSnapshot)) (specs : List (Str × Str)) :
    ∀ (es : List (Str × PackageSnapshot)) deps sub deps2 sub2,
      (keysOf deps).Nodup →
      phase2 pkgs specs (deps, sub) es = .ok (deps2, sub2) →
      (keysOf deps2).Nodup := by
  intro es
  induction es with
  | nil =>
    rintro deps sub deps2 sub2 hnd h
    cases h
    exact hnd
  | cons e rest ih =>
    rintro deps sub deps2 sub2 hnd h
    obtain ⟨key, snap⟩ := e
    simp only [phase2] at h
    rcases hd : getPathPackageDesc key with m | d <;> rw [hd] at h <;> dsimp only at h
    · cases h
    · rcases hp : getPackage pkgs specs d false with m | ⟨pkg, x⟩ <;> rw [hp] at h <;>
        dsimp only at h
      · cases h
      · by_cases hin : (lkp deps d.name).isSome
        · rw [if_pos hin] at h
          exact ih deps _ deps2 sub2 hnd h
        · rw [if_neg hin] at h
          exact ih _ sub deps2 sub2 (nodup_ins deps d.name pkg hnd) h

theorem processLockfile_phases {l : PnpmPackageLock} {out : NpmPackageLock}
    (h : processLockfile l = .ok out) :
    ∃ deps1 pkgs1 deps2 sub deps3,
      phase1 l = .ok (deps1, pkgs1) ∧
      phase2 pkgs1 l.specifiers (deps1, []) pkgs1 = .ok (deps2, sub) ∧
      phase3 sub deps2 deps2 = .ok deps3 ∧
      out = { requires := some true, lockfileVersion := 1, dependencies := deps3 } := by
  unfold processLockfile at h
  rcases h1 : phase1 l with m | ⟨deps1, pkgs1⟩ <;> rw [h1] at h <;> dsimp only at h
  · cases h
  · rcases h2 : phase2 pkgs1 l.specifiers (deps1, []) pkgs1 with m | ⟨deps2, sub⟩ <;>
      rw [h2] at h <;> dsimp only at h
    · cases h
    · rcases h3 : phase3 sub deps2 deps2 with m | deps3 <;> rw [h3] at h <;> dsimp only at h
      · cases h
      · injection h with h
        subst h
        exact ⟨deps1, pkgs1, deps2, sub, deps3, rfl, h2, h3, rfl⟩

/-- Claim C4: when the concatenated bucket entry list splits as
`l1 ++ (n, v) :: l2` with no later entry resolving to the same root name,
the output's root entry under that name is the record resolved from that
later-processed entry (later kinds overwrite earlier ones), up to the
`requires`/`dependencies` rewriting of Phase 3.  The bucket order itself is
the spec-modelled `allRootEntries` priority runtime, development,
optional. -/
theorem c4_last_bucket_wins (l : PnpmPackageLock) (l1 l2 : List (Str × Str)) (n v : Str)
    (d : PnpmPackageDesc) (out : NpmPackageLock)
    (hsplit : allRootEntries l = l1 ++ (n, v) :: l2)
    (hd : getDependencyPackageDesc n v = .ok d)
    (hl2 : ∀ p ∈ l2, ∀ d2 : PnpmPackageDesc,
        getDependencyPackageDesc p.1 p.2 = .ok d2 → d2.name ≠ d.name)
    (hout : processLockfile l = .ok out) :
    ∃ depsMid pkgsMid dep pkgs2 rec,
      phase1Entries l.specifiers ([], l.packages) l1 = .ok (depsMid, pkgsMid) ∧
      getPackage pkgsMid l.specifiers d true = .ok (dep, pkgs2) ∧
      lkp out.dependencies d.name = some rec ∧ SameCore rec dep := by
  obtain ⟨deps1, pkgs1, deps2, sub, deps3, h1, h2, h3, hout2⟩ := processLockfile_phases hout
  unfold phase1 at h1
  have h1s : phase1Entries l.specifiers ([], l.packages) (l1 ++ (n, v) :: l2) =
      .ok (deps1, pkgs1) := by rw [← hsplit]; exact h1
  rw [phase1Entries_append] at h1s
  rcases hm : phase1Entries l.specifiers ([], l.packages) l1 with m | ⟨depsMid, pkgsMid⟩ <;>
    rw [hm] at h1s <;> dsimp only at h1s
  · cases h1s
  · simp only [phase1Entries] at h1s
    rw [hd] at h1s
    dsimp only at h1s
    rcases hp : getPackage pkgsMid l.specifiers d true with m | ⟨dep, pkgs2⟩ <;>
      rw [hp] at h1s <;> dsimp only at h1s
    · cases h1s
    · have hdeps1 : lkp deps1 d.name = some dep := by
        have hpr := phase1Entries_names l.specifiers d.name l2
          (ins depsMid d.name dep, pkgs2) (deps1, pkgs1) hl2 h1s
        rw [hpr]
        exact lkp_ins_self _ _ _
      have hdeps2 : lkp deps2 d.name = some dep :=
        phase2_pres_deps pkgs1 l.specifiers d.name dep pkgs1 deps1 [] deps2 sub h2 hdeps1
      have hnd1 : (keysOf deps1).Nodup := by
        refine phase1Entries_nodup l.specifiers (l1 ++ (n, v) :: l2)
          ([], l.packages) (deps1, pkgs1) ?_ ?_
        · simp [keysOf]
        · rw [phase1Entries_append, hm]
          dsimp only
          simp only [phase1Entries]
          rw [hd]
          dsimp only
          rw [hp]
          exact h1s
      have hnd2 : (keysOf deps2).Nodup :=
        phase2_nodup pkgs1 l.specifiers pkgs1 deps1 [] deps2 sub hnd1 h2
      have hes : ∀ kv ∈ deps2, ∃ w, lkp deps2 kv.1 = some w ∧ SameCore kv.2 w := by
        intro kv hm2
        exact ⟨kv.2, lkp_of_mem deps2 kv.1 kv.2 hnd2 hm2, SameCore_refl _⟩
      obtain ⟨w2, hw2, hcore⟩ := phase3_pres sub deps2 deps2 deps3 hnd2 hes h3 d.name dep hdeps2
      refine ⟨depsMid, pkgsMid, dep, pkgs2, w2, rfl, hp, ?_, hcore⟩
      rw [hout2]
      exact hw2

theorem phase2_sub_stable (pkgs : List (Str × PackageSnapshot)) (specs : List (Str × Str)) :
    ∀ (es : List (Str × PackageSnapshot)) deps sub deps2 sub2 (k : Str),
      k ∉ keysOf es →
      phase2 pkgs specs (deps, sub) es = .ok (deps2, sub2) →
      lkp sub2 k = lkp sub k := by
  intro es
  induction es with
  | nil =>
    rintro deps sub deps2 sub2 k - h
    cases h
    rfl
  | cons e rest ih =>
    rintro deps sub deps2 sub2 k hk h
    obtain ⟨key, snap⟩ := e
    have hk1 : k ≠ key := by
      intro hh
      apply hk
      simp only [keysOf, List.map_cons]
      exact hh ▸ List.mem_cons_self _ _
    have hk2 : k ∉ keysOf rest := by
      intro hh
      apply hk
      simp only [keysOf, List.map_cons]
      exact List.mem_cons_of_mem _ hh
    simp only [phase2] at h
    rcases hd : getPathPackageDesc key with m | d <;> rw [hd] at h <;> dsimp only at h
    · cases h
    · rcases hp : getPackage pkgs specs d false with m | ⟨pkg, x⟩ <;> rw [hp] at h <;>
        dsimp only at h
      · cases h
      · have hfull : d.fullName = key := (getPathPackageDesc_basic hd).1
        by_cases hin : (lkp deps d.name).isSome
        · rw [if_pos hin] at h
          have := ih deps (ins sub d.fullName pkg) deps2 sub2 k hk2 h
          rw [this, hfull, lkp_ins_ne sub k key pkg (fun hh => hk1 hh.symm)]
        · rw [if_neg hin] at h
          exact ih (ins deps d.name pkg) sub deps2 sub2 k hk2 h

theorem phase2_classify_aux (pkgs : List (Str × PackageSnapshot)) (specs : List (Str × Str)) :
    ∀ (es : List (Str × PackageSnapshot)) deps sub deps2 sub2,
      (∀ k ∈ keysOf es, lkp sub k = none) →
      (keysOf es).Nodup →
      phase2 pkgs specs (deps, sub) es = .ok (deps2, sub2) →
      ∀ k ∈ keysOf es, ∃ d pkg,
        getPathPackageDesc k = .ok d ∧ d.fullName = k ∧
        getPackage pkgs specs d false = .ok (pkg, pkgs) ∧
        (lkp sub2 k = some pkg ∨ (lkp sub2 k = none ∧ lkp deps2 d.name = some pkg)) := by
  intro es
  induction es with
  | nil =>
    rintro deps sub deps2 sub2 - - - k hk
    simp [keysOf] at hk
  | cons e rest ih =>
    rintro deps sub deps2 sub2 hsub0 hnd h k hk
    obtain ⟨key, snap⟩ := e
    simp only [phase2] at h
    rcases hd : getPathPackageDesc key with m | d <;> rw [hd] at h <;> dsimp only at h
    · cases h
    · rcases hp : getPackage pkgs specs d false with m | ⟨pkg, x⟩ <;> rw [hp] at h <;>
        dsimp only at h
      · cases h
      · have hx : x = pkgs := getPackage_noremove_snd pkgs specs d pkg x hp
        rw [hx] at hp
        have hfull : d.fullName = key := (getPathPackageDesc_basic hd).1
        have hkey_rest : key ∉ keysOf rest := by
          simp only [keysOf, List.map_cons, List.nodup_cons] at hnd
          exact hnd.1
        have hnd2 : (keysOf rest).Nodup := by
          simp only [keysOf, List.map_cons, List.nodup_cons] at hnd
          exact hnd.2
        rcases List.mem_cons.mp (by simpa only [keysOf, List.map_cons] using hk)
          with rfl | hkrest
        · by_cases hin : (lkp deps d.name).isSome
          · rw [if_pos hin] at h
            refine ⟨d, pkg, hd, hfull, hp, Or.inl ?_⟩
            have hst := phase2_sub_stable pkgs specs rest deps (ins sub d.fullName pkg)
              deps2 sub2 k hkey_rest h
            rw [hst, hfull]
            exact lkp_ins_self _ _ _
          · rw [if_neg hin] at h
            refine ⟨d, pkg, hd, hfull, hp, Or.inr ⟨?_, ?_⟩⟩
            · have hst := phase2_sub_stable pkgs specs rest (ins deps d.name pkg) sub
                deps2 sub2 k hkey_rest h
              rw [hst]
              exact hsub0 k (by simp only [keysOf, List.map_cons]; exact List.mem_cons_self _ _)
            · exact phase2_pres_deps pkgs specs d.name pkg rest _ _ deps2 sub2 h
                (lkp_ins_self _ _ _)
        · by_cases hin : (lkp deps d.name).isSome
          · rw [if_pos hin] at h
            refine ih deps (ins sub d.fullName pkg) deps2 sub2 ?_ hnd2 h k hkrest
            intro k2 hk2
            have hne : key ≠ k2 := fun hh => hkey_rest (hh ▸ hk2)
            rw [hfull, lkp_ins_ne sub k2 key pkg hne]
            exact hsub0 k2 (by simp only [keysOf, List.map_cons]; exact List.mem_cons_of_mem _ hk2)
          · rw [if_neg hin] at h
            refine ih (ins deps d.name pkg) sub deps2 sub2 ?_ hnd2 h k hkrest
            intro k2 hk2
            exact hsub0 k2 (by simp only [keysOf, List.map_cons]; exact List.mem_cons_of_mem _ hk2)

/-- Claim C1 (amended): every package-key that survives Phase 1 is
classified by Phase 2 exactly once — its resolved record is staged under
the full key, or, when not staged, promoted into the root map under its
parsed name.  (The original exactly-once-in-the-output claim fails, see the
counterexample.) -/
theorem c1_phase2_classifies (pkgs : List (Str × PackageSnapshot)) (specs : List (Str × Str))
    (deps0 deps2 sub2 : List (Str × NpmLockedPackageDependency))
    (hnd : (keysOf pkgs).Nodup)
    (hrun : phase2 pkgs specs (deps0, []) pkgs = .ok (deps2, sub2)) :
    ∀ k ∈ keysOf pkgs, ∃ d pkg,
      getPathPackageDesc k = .ok d ∧ d.fullName = k ∧
      getPackage pkgs specs d false = .ok (pkg, pkgs) ∧
      (lkp sub2 k = some pkg ∨ (lkp sub2 k = none ∧ lkp deps2 d.name = some pkg)) :=
  phase2_classify_aux pkgs specs pkgs deps0 [] deps2 sub2 (fun _ _ => rfl) hnd hrun

theorem c1_witness :
    ∃ d pkg,
      getPathPackageDesc (chars "/x/1.0.0") = .ok d ∧ d.fullName = chars "/x/1.0.0" ∧
      getPackage [(chars "/x/1.0.0", {})] [] d false = .ok (pkg, [(chars "/x/1.0.0", {})]) ∧
      (lkp ([] : List (Str × NpmLockedPackageDependency)) (chars "/x/1.0.0") = some pkg ∨
        (lkp ([] : List (Str × NpmLockedPackageDependency)) (chars "/x/1.0.0") = none ∧
         lkp [(chars "x", { version := chars "1.0.0" })] d.name = some pkg)) :=
  c1_phase2_classifies [(chars "/x/1.0.0", {})] [] []
    [(chars "x", { version := chars "1.0.0" })] [] (by decide) rfl
    (chars "/x/1.0.0") (by simp [keysOf])

/-- Claim C1, counterexample: in `cdoc1` the conversion succeeds, yet the
source key `/a/1.0.0` (consumed in Phase 1 and then overwritten by the
development bucket's `a@2.0.0`) appears zero times in the output, while the
staged key `/a/3.0.0` (required by the two roots `foo` and `baz`) appears
twice — so keys are dropped and duplicated, not consumed into the output
exactly once. -/
theorem c1_counterexample :
    processLockfile cdoc1 = .ok c1out ∧
    (lkp cdoc1.packages (chars "/a/1.0.0")).isSome = true ∧
    keyAppearCount c1out (chars "/a/1.0.0") = 0 ∧
    (lkp cdoc1.packages (chars "/a/3.0.0")).isSome = true ∧
    keyAppearCount c1out (chars "/a/3.0.0") = 2 :=
  ⟨rfl, rfl, rfl, rfl, rfl⟩

theorem c4_witness :
    ∃ depsMid pkgsMid dep pkgs2 rec,
      phase1Entries c4doc.specifiers ([], c4doc.packages) [(chars "a", chars "1.0.0")] =
        .ok (depsMid, pkgsMid) ∧
      getPackage pkgsMid c4doc.specifiers
        ⟨.Version, chars "/a/2.0.0", chars "a", chars "2.0.0", none⟩ true = .ok (dep, pkgs2) ∧
      lkp c4out.dependencies (chars "a") = some rec ∧ SameCore rec dep :=
  c4_last_bucket_wins c4doc [(chars "a", chars "1.0.0")] [] (chars "a") (chars "2.0.0")
    ⟨.Version, chars "/a/2.0.0", chars "a", chars "2.0.0", none⟩ c4out rfl rfl
    (fun p hp => absurd hp (List.not_mem_nil p)) rfl

end Compass
